import Mathlib

/-!
Verification of the portpick core against its design document.

The embedding follows the Rust source (src/lib.rs and src/main.rs):
Rust strings are modelled as lists of characters, `HashSet<u16>` as
`Finset ℕ`, and u16 arithmetic carries an explicit `% 65536` at the one
place machine addition occurs, so that absence of wrap-around is proved,
not assumed.  `Nat` truncated subtraction coincides with u16
`saturating_sub`.  Fallible functions return `Except`/`Option`.
-/

namespace Portpick

/-! ## Port search engine (find_available_ports, src/lib.rs lines 61-110) -/

/-- Inner loop of the contiguous search: a block of `num` consecutive u16
ports starting at `p_start` is available iff none of them is forbidden
(src/lib.rs lines 82-91, short-circuiting on the first forbidden port). -/
def block_available (forbidden : Finset ℕ) (p_start num : ℕ) : Bool :=
  (List.range num).all fun i => ! decide ((p_start + i) % 65536 ∈ forbidden)

/-- Ports accumulated by the inner loop while the block stays available
(`current_block` in src/lib.rs lines 83-90). -/
def current_block (p_start num : ℕ) : List ℕ :=
  (List.range num).map fun i => (p_start + i) % 65536

/-- Outer loop `for p_start in start_range..=effective_end_search` of the
contiguous search (src/lib.rs lines 81-95), as a recursion on the number of
remaining start positions; returns the first start whose block is
available. -/
def search_block (forbidden : Finset ℕ) (num : ℕ) : ℕ → ℕ → Option ℕ
  | _, 0 => none
  | p_start, fuel + 1 =>
    if block_available forbidden p_start num then some p_start
    else search_block forbidden num (p_start + 1) fuel

/-- Rust `end_range.saturating_sub(num_ports - 1)` behind the defensive
`num_ports > 0` check (src/lib.rs lines 75-79); truncated `Nat` subtraction
is exactly u16 `saturating_sub`. -/
def effective_end_search (end_range num : ℕ) : ℕ :=
  if 0 < num then end_range - (num - 1) else end_range

/-- Contiguous scan of one tier `(start_range, end_range)`: the first
available block in the tier, if any (src/lib.rs lines 74-96). -/
def search_tier (forbidden : Finset ℕ) (num start_range end_range : ℕ) :
    Option (List ℕ) :=
  match search_block forbidden num start_range
      (effective_end_search end_range num + 1 - start_range) with
  | some p => some (current_block p num)
  | none => none

/-- Non-contiguous collection loop (src/lib.rs lines 98-107): push every
non-forbidden port in order, returning as soon as `num` ports are
collected. -/
def collect_ports (forbidden : Finset ℕ) (num : ℕ) : List ℕ → List ℕ → List ℕ
  | found, [] => found
  | found, port :: rest =>
    if port ∉ forbidden then
      if (found ++ [port]).length = num then found ++ [port]
      else collect_ports forbidden num (found ++ [port]) rest
    else collect_ports forbidden num found rest

/-- Ascending inclusive port list of one tier of
`port_ranges = [(1024, 49151), (49152, 65535)]` (src/lib.rs line 71). -/
def tier_ports (start_range end_range : ℕ) : List ℕ :=
  List.range' start_range (end_range + 1 - start_range)

/-- The port search engine `find_available_ports` (src/lib.rs lines 61-110):
the loop over `port_ranges` is unrolled to the two fixed tiers, tier A
`(1024, 49151)` first. -/
def find_available_ports (forbidden : Finset ℕ) (num_ports : ℕ)
    (continuous : Bool) : List ℕ :=
  if num_ports = 0 then []
  else if continuous then
    match search_tier forbidden num_ports 1024 49151 with
    | some block => block
    | none =>
      match search_tier forbidden num_ports 49152 65535 with
      | some block => block
      | none => []
  else
    collect_ports forbidden num_ports []
      (tier_ports 1024 49151 ++ tier_ports 49152 65535)

/-! ## Specification-side definitions (spec §4.5), for refinement claims -/

/-- Specification-side window predicate: a window of `desired_count`
consecutive ports starting at `p` is available iff none of them is in the
exclusion set. -/
def window_free (excl : Finset ℕ) (p num : ℕ) : Bool :=
  decide (∀ i < num, p + i ∉ excl)

/-- Specification-side candidate start positions in tier priority order:
each tier's start up to `tier_end - desired_count + 1`. -/
def spec_starts (num : ℕ) : List ℕ :=
  List.range' 1024 (48128 + 1 - num) ++ List.range' 49152 (16384 + 1 - num)

/-- Specification-side contiguous search: the first available window start
(ascending start position, tier priority order). -/
def first_free_start (excl : Finset ℕ) (num : ℕ) : Option ℕ :=
  (spec_starts num).find? fun p => window_free excl p num

/-- Specification-side non-contiguous semantics: the ascending list of
non-excluded ports of `[1024, 65535]`. -/
def spec_available_ascending (excl : Finset ℕ) : List ℕ :=
  (List.range' 1024 64512).filter fun p => p ∉ excl

/-! ## Registry parser (parse_services_content, src/lib.rs lines 21-59) -/

/-- Characters of a Rust string slice. -/
abbrev Str := List Char

/-- Rust `str::trim`: leading and trailing whitespace removed. -/
def trimStr (s : Str) : Str :=
  ((s.dropWhile Char.isWhitespace).reverse.dropWhile Char.isWhitespace).reverse

/-- Rust `str::to_lowercase`; the registry comparisons are against the ASCII
keywords `unknown` and `tcp`, for which `Char.toLower` agrees. -/
def toLowerStr (s : Str) : Str := s.map Char.toLower

/-- Core of character-separated splitting: the piece before the first
separator, and the pieces after each separator. -/
def splitWhenCore (p : Char → Bool) : Str → Str × List Str
  | [] => ([], [])
  | c :: cs =>
    let r := splitWhenCore p cs
    if p c then ([], r.1 :: r.2) else (c :: r.1, r.2)

/-- Rust `str::split(sep)`: empty pieces between consecutive separators are
kept. -/
def splitWhen (p : Char → Bool) (s : Str) : List Str :=
  (splitWhenCore p s).1 :: (splitWhenCore p s).2

/-- Rust `str::split_whitespace`: split on whitespace runs, dropping empty
pieces. -/
def split_whitespace (s : Str) : List Str :=
  (splitWhen Char.isWhitespace s).filter fun t => t ≠ []

/-- Rust `str::lines`, modelled as splitting on the newline character (a
trailing newline then yields one extra empty line, which the parser
skips). -/
def linesStr (s : Str) : List Str := splitWhen (fun c => c = '\n') s

/-- Rust `u16::from_str`: an optional leading plus sign, then at least one
character, all decimal digits, and a value of at most 65535. -/
def parseU16 (s : Str) : Option ℕ :=
  let digits := match s with
    | '+' :: rest => rest
    | _ => s
  if digits = [] then none
  else if digits.all Char.isDigit then
    let n := digits.foldl (fun a c => a * 10 + (c.toNat - 48)) 0
    if n ≤ 65535 then some n else none
  else none

/-- Body of the per-line loop of parse_services_content (src/lib.rs lines
26-54): the TCP port the line contributes, if any. -/
def parse_line (line : Str) : Option ℕ :=
  let trimmed := trimStr line
  if trimmed.head? = some '#' ∨ trimmed = [] then none
  else
    let parts := split_whitespace trimmed
    if parts.length < 2 then none
    else if toLowerStr (parts.getD 0 []) = "unknown".toList then none
    else
      let pair := splitWhen (fun c => c = '/') (parts.getD 1 [])
      if pair.length = 2 then
        if toLowerStr (pair.getD 1 []) = "tcp".toList then
          parseU16 (pair.getD 0 [])
        else none
      else none

/-- Fold of parse_services_content over the lines of its input, inserting
each contributed port into the set. -/
def parse_services_lines (ls : List Str) : Finset ℕ :=
  ls.foldl (fun ports line =>
    match parse_line line with
    | some p => insert p ports
    | none => ports) ∅

/-- parse_services_content (src/lib.rs lines 21-59): parses a services
registry into the set of its TCP ports.  The verbose branches only print;
the function's single exit is `Ok(ports)`. -/
def parse_services_content (content : Str) : Except Str (Finset ℕ) :=
  Except.ok (parse_services_lines (linesStr content))

/-- Equality of parse results is decidable, so concrete registry scenarios
can be checked by evaluation. -/
instance : DecidableEq (Except Str (Finset ℕ)) := fun a b =>
  match a, b with
  | Except.ok x, Except.ok y => decidable_of_iff (x = y) (by simp)
  | Except.error x, Except.error y => decidable_of_iff (x = y) (by simp)
  | Except.ok _, Except.error _ => isFalse (by simp)
  | Except.error _, Except.ok _ => isFalse (by simp)

/-- Conditions of claim C6 under which a line contributes port `p`, written
as one conjunction. -/
def keeps_line (line : Str) (p : ℕ) : Prop :=
  trimStr line ≠ [] ∧
  (trimStr line).head? ≠ some '#' ∧
  2 ≤ (split_whitespace (trimStr line)).length ∧
  toLowerStr ((split_whitespace (trimStr line)).getD 0 []) ≠ "unknown".toList ∧
  ∃ port_str proto,
    splitWhen (fun c => c = '/') ((split_whitespace (trimStr line)).getD 1 [])
      = [port_str, proto] ∧
    toLowerStr proto = "tcp".toList ∧
    parseU16 port_str = some p

/-! ## Exclusion set aggregation (main, src/main.rs lines 220-290) -/

/-- Aggregation of forbidden-port sets as in main: `forbidden_ports` starts
empty and each selected source's set is unioned in via `extend`. -/
def aggregate (sets : List (Finset ℕ)) : Finset ℕ :=
  sets.foldl (fun acc s => acc ∪ s) ∅

/-! ## Tabular/range registry parser (spec §4.2) -/

/-- Modelled from the spec: the tabular/range registry parser's handling of
one candidate cell (spec §4.2).  The repository's src has no CSV/HTML
registry parser; the cell shape is taken from the spec's words: a single
integer, or a two-integer range separated by a hyphen or an en-dash with
optional surrounding whitespace; ranges require `start ≤ end` and expand to
every port in `[start, end]` inclusive; reversed ranges and values outside
the u16 range contribute nothing. -/
def expand_range_cell (cell : Str) : Finset ℕ :=
  let t := trimStr cell
  let hyphen_split := splitWhen (fun c => c = '-') t
  let parts := if hyphen_split.length = 2 then hyphen_split
    else splitWhen (fun c => c = '–') t
  match parts with
  | [single] =>
    match parseU16 (trimStr single) with
    | some p => {p}
    | none => ∅
  | [a, b] =>
    match parseU16 (trimStr a), parseU16 (trimStr b) with
    | some s, some e => if s ≤ e then Finset.Icc s e else ∅
    | _, _ => ∅
  | _ => ∅

/-! ## Lemmas: the contiguous search -/

theorem block_available_iff (forbidden : Finset ℕ) (p num : ℕ) :
    block_available forbidden p num = true ↔
      ∀ i < num, (p + i) % 65536 ∉ forbidden := by
  simp [block_available, List.all_eq_true, List.mem_range]

theorem search_block_eq_find? (forbidden : Finset ℕ) (num : ℕ) :
    ∀ fuel p_start, search_block forbidden num p_start fuel =
      (List.range' p_start fuel).find? fun q => block_available forbidden q num := by
  intro fuel
  induction fuel with
  | zero => intro p_start; rfl
  | succ n ih =>
    intro p_start
    rw [List.range'_succ]
    by_cases h : block_available forbidden p_start num
    · simp [search_block, h]
    · simp [search_block, h, ih]

theorem search_tier_eq_none_or (forbidden : Finset ℕ) (num s e : ℕ)
    (hs : 0 < s) (he : e ≤ 65535) :
    search_tier forbidden num s e = none ∨
    ∃ p, s ≤ p ∧ p + num ≤ e + 1 ∧
      search_tier forbidden num s e = some (List.range' p num) ∧
      ∀ i < num, p + i ∉ forbidden := by
  cases hsb : search_block forbidden num s
      (effective_end_search e num + 1 - s) with
  | none => left; simp [search_tier, hsb]
  | some p =>
    right
    have hsb' := hsb
    rw [search_block_eq_find?] at hsb'
    have hmem := List.mem_of_find?_eq_some hsb'
    have hav : block_available forbidden p num = true := by
      simpa using List.find?_some hsb'
    rw [List.mem_range'_1] at hmem
    obtain ⟨h1, h2⟩ := hmem
    have hple : p + num ≤ e + 1 := by
      by_cases hn : 0 < num
      · rw [effective_end_search, if_pos hn] at h2; omega
      · rw [effective_end_search, if_neg hn] at h2; omega
    have hb := (block_available_iff forbidden p num).mp hav
    have hmod : ∀ i < num, p + i ∉ forbidden := by
      intro i hi
      have hlt : (p + i) % 65536 = p + i := Nat.mod_eq_of_lt (by omega)
      have := hb i hi
      rwa [hlt] at this
    refine ⟨p, h1, hple, ?_, hmod⟩
    have hblk : current_block p num = List.range' p num := by
      rw [List.range'_eq_map_range, current_block]
      apply List.map_congr_left
      intro i hi
      rw [List.mem_range] at hi
      exact Nat.mod_eq_of_lt (by omega)
    rw [search_tier, hsb]
    exact congrArg some hblk

theorem find_true_eq_of_tierA (forbidden : Finset ℕ) (num : ℕ) (b : List ℕ)
    (h0 : num ≠ 0) (hA : search_tier forbidden num 1024 49151 = some b) :
    find_available_ports forbidden num true = b := by
  rw [find_available_ports, if_neg h0, if_pos rfl, hA]

theorem find_true_eq_of_tierB (forbidden : Finset ℕ) (num : ℕ) (b : List ℕ)
    (h0 : num ≠ 0) (hA : search_tier forbidden num 1024 49151 = none)
    (hB : search_tier forbidden num 49152 65535 = some b) :
    find_available_ports forbidden num true = b := by
  rw [find_available_ports, if_neg h0, if_pos rfl, hA, hB]

theorem find_true_eq_of_none (forbidden : Finset ℕ) (num : ℕ)
    (h0 : num ≠ 0) (hA : search_tier forbidden num 1024 49151 = none)
    (hB : search_tier forbidden num 49152 65535 = none) :
    find_available_ports forbidden num true = [] := by
  rw [find_available_ports, if_neg h0, if_pos rfl, hA, hB]

theorem find_available_ports_false (forbidden : Finset ℕ) (num : ℕ) (h0 : num ≠ 0) :
    find_available_ports forbidden num false =
      collect_ports forbidden num [] (tier_ports 1024 49151 ++ tier_ports 49152 65535) := by
  rw [find_available_ports, if_neg h0]
  exact if_neg Bool.false_ne_true

theorem find_available_ports_zero (forbidden : Finset ℕ) (continuous : Bool) :
    find_available_ports forbidden 0 continuous = [] := by
  rw [find_available_ports, if_pos rfl]

theorem find_contiguous_cases (forbidden : Finset ℕ) (num : ℕ) :
    find_available_ports forbidden num true = [] ∨
    ∃ p, ((1024 ≤ p ∧ p + num ≤ 49152) ∨ (49152 ≤ p ∧ p + num ≤ 65536)) ∧
      find_available_ports forbidden num true = List.range' p num ∧
      ∀ i < num, p + i ∉ forbidden := by
  by_cases h0 : num = 0
  · left; rw [h0]; exact find_available_ports_zero forbidden true
  · rcases search_tier_eq_none_or forbidden num 1024 49151 (by omega) (by omega)
      with hA | ⟨p, h1, h2, hA, h3⟩
    · rcases search_tier_eq_none_or forbidden num 49152 65535 (by omega) (by omega)
        with hB | ⟨p, h1, h2, hB, h3⟩
      · left; exact find_true_eq_of_none forbidden num h0 hA hB
      · right
        exact ⟨p, Or.inr ⟨h1, by omega⟩,
          find_true_eq_of_tierB forbidden num _ h0 hA hB, h3⟩
    · right
      exact ⟨p, Or.inl ⟨h1, by omega⟩,
        find_true_eq_of_tierA forbidden num _ h0 hA, h3⟩

/-! ## Lemmas: the non-contiguous search -/

theorem collect_ports_eq (forbidden : Finset ℕ) (num : ℕ) (rest : List ℕ) :
    ∀ found : List ℕ, found.length < num →
      collect_ports forbidden num found rest =
        found ++ (rest.filter fun p => p ∉ forbidden).take (num - found.length) := by
  induction rest with
  | nil => intro found h; simp [collect_ports]
  | cons port rest ih =>
    intro found h
    by_cases hp : port ∉ forbidden
    · rw [collect_ports, if_pos hp]
      by_cases hlen : (found ++ [port]).length = num
      · rw [if_pos hlen]
        simp only [List.length_append, List.length_cons, List.length_nil] at hlen
        have hnum : num - found.length = 1 := by omega
        rw [List.filter_cons_of_pos (by simpa using hp), hnum,
          List.take_succ_cons, List.take_zero]
      · rw [if_neg hlen]
        simp only [List.length_append, List.length_cons, List.length_nil] at hlen
        rw [ih (found ++ [port]) (by simp; omega)]
        rw [List.filter_cons_of_pos (by simpa using hp)]
        have hnum : num - found.length = (num - (found ++ [port]).length) + 1 := by
          simp; omega
        rw [hnum, List.take_succ_cons]
        simp
    · rw [collect_ports, if_neg hp, ih found h,
        List.filter_cons_of_neg (by simpa using hp)]

theorem tiers_append :
    tier_ports 1024 49151 ++ tier_ports 49152 65535 = List.range' 1024 64512 := by
  have h := List.range'_append_1 1024 48128 16384
  norm_num at h
  exact h

theorem find_noncontiguous_eq (forbidden : Finset ℕ) (num : ℕ) :
    find_available_ports forbidden num false =
      (spec_available_ascending forbidden).take num := by
  by_cases h0 : num = 0
  · rw [h0, find_available_ports_zero, List.take_zero]
  · rw [find_available_ports_false forbidden num h0,
      collect_ports_eq forbidden num _ [] (by simp only [List.length_nil]; omega),
      tiers_append]
    simp [spec_available_ascending]

/-! ## Lemmas: agreement of code-level and spec-level window search -/

theorem window_free_iff (excl : Finset ℕ) (p num : ℕ) :
    window_free excl p num = true ↔ ∀ i < num, p + i ∉ excl := by
  simp [window_free]

theorem block_available_eq_window_free (excl : Finset ℕ) (q num : ℕ)
    (h : q + num ≤ 65536) :
    block_available excl q num = window_free excl q num := by
  rw [Bool.eq_iff_iff, block_available_iff, window_free_iff]
  constructor
  · intro hb i hi
    have hx := hb i hi
    rwa [Nat.mod_eq_of_lt (by omega)] at hx
  · intro hw i hi
    rw [Nat.mod_eq_of_lt (by omega)]
    exact hw i hi

theorem find?_congruence {α : Type} (l : List α) (p q : α → Bool)
    (h : ∀ x ∈ l, p x = q x) : l.find? p = l.find? q := by
  induction l with
  | nil => rfl
  | cons a l ih =>
    rw [List.find?_cons, List.find?_cons, h a (by simp)]
    cases q a
    · exact ih fun x hx => h x (by simp [hx])
    · rfl

theorem search_tier_eq_spec (excl : Finset ℕ) (num s e w : ℕ)
    (hs : 0 < s) (he : e ≤ 65535) (hw : e + 1 - s = w) (h1 : 1 ≤ num) :
    search_tier excl num s e =
      ((List.range' s (w + 1 - num)).find? fun q => window_free excl q num).map
        fun p => List.range' p num := by
  have hfuel : effective_end_search e num + 1 - s = w + 1 - num := by
    rw [effective_end_search, if_pos (by omega : 0 < num)]; omega
  have hpred :
      ((List.range' s (w + 1 - num)).find? fun q => block_available excl q num) =
        (List.range' s (w + 1 - num)).find? fun q => window_free excl q num := by
    apply find?_congruence
    intro x hx
    rw [List.mem_range'_1] at hx
    exact block_available_eq_window_free excl x num (by omega)
  cases hf : (List.range' s (w + 1 - num)).find?
      (fun q => window_free excl q num) with
  | none =>
    have hsb : search_block excl num s (effective_end_search e num + 1 - s) = none := by
      rw [search_block_eq_find?, hfuel, hpred, hf]
    rw [search_tier, hsb]
    rfl
  | some p =>
    have hsb : search_block excl num s (effective_end_search e num + 1 - s) = some p := by
      rw [search_block_eq_find?, hfuel, hpred, hf]
    have hp := List.mem_of_find?_eq_some hf
    rw [List.mem_range'_1] at hp
    have hblk : current_block p num = List.range' p num := by
      rw [List.range'_eq_map_range, current_block]
      apply List.map_congr_left
      intro i hi
      rw [List.mem_range] at hi
      exact Nat.mod_eq_of_lt (by omega)
    rw [search_tier, hsb]
    show some (current_block p num) = some (List.range' p num)
    rw [hblk]

/-! ## Claim theorems: the search engine -/

/-- C1: for every exclusion set, desired count, and contiguity flag, every
port in the sequence returned by find_available_ports lies within
[1024, 49151] or [49152, 65535] and is not a member of the exclusion
set. -/
theorem found_ports_in_tiers_and_not_excluded (forbidden : Finset ℕ)
    (num : ℕ) (continuous : Bool) (p : ℕ)
    (hp : p ∈ find_available_ports forbidden num continuous) :
    ((1024 ≤ p ∧ p ≤ 49151) ∨ (49152 ≤ p ∧ p ≤ 65535)) ∧ p ∉ forbidden := by
  cases continuous with
  | true =>
    rcases find_contiguous_cases forbidden num with h | ⟨q, hq, heq, hfree⟩
    · rw [h] at hp
      simp at hp
    · rw [heq, List.mem_range'_1] at hp
      obtain ⟨hq1, hq2⟩ := hp
      have hnf : p ∉ forbidden := by
        have hx := hfree (p - q) (by omega)
        rwa [Nat.add_sub_cancel' hq1] at hx
      rcases hq with ⟨ha, hb⟩ | ⟨ha, hb⟩
      · exact ⟨Or.inl ⟨by omega, by omega⟩, hnf⟩
      · exact ⟨Or.inr ⟨by omega, by omega⟩, hnf⟩
  | false =>
    rw [find_noncontiguous_eq] at hp
    have hp2 : p ∈ spec_available_ascending forbidden :=
      (List.take_sublist _ _).subset hp
    rw [spec_available_ascending, List.mem_filter, List.mem_range'_1] at hp2
    obtain ⟨⟨h1, h2⟩, h3⟩ := hp2
    simp only [decide_eq_true_eq] at h3
    exact ⟨by omega, h3⟩

theorem found_ports_in_tiers_and_not_excluded_witness :
    1026 ∈ find_available_ports ({1024, 1025} : Finset ℕ) 1 false ∧
    (((1024 ≤ 1026 ∧ 1026 ≤ 49151) ∨ (49152 ≤ 1026 ∧ 1026 ≤ 65535)) ∧
      1026 ∉ ({1024, 1025} : Finset ℕ)) :=
  ⟨by decide,
    found_ports_in_tiers_and_not_excluded ({1024, 1025} : Finset ℕ) 1 false 1026
      (by decide)⟩

/-- C2: for desired_count ≥ 1, contiguous search returns exactly the window
of the first available start position, trying tier A's starts in ascending
order and then tier B's (the spec-side first_free_start). -/
theorem contiguous_equals_first_window (excl : Finset ℕ) (num : ℕ)
    (h : 1 ≤ num) :
    find_available_ports excl num true =
      match first_free_start excl num with
      | some p => List.range' p num
      | none => [] := by
  have hA := search_tier_eq_spec excl num 1024 49151 48128 (by omega) (by omega)
    (by norm_num) h
  have hB := search_tier_eq_spec excl num 49152 65535 16384 (by omega) (by omega)
    (by norm_num) h
  rw [first_free_start, spec_starts, List.find?_append]
  cases hfA : (List.range' 1024 (48128 + 1 - num)).find?
      (fun q => window_free excl q num) with
  | some p =>
    rw [hfA] at hA
    simp only [Option.map_some'] at hA
    rw [find_true_eq_of_tierA excl num _ (by omega) hA]
    rfl
  | none =>
    rw [hfA] at hA
    simp only [Option.map_none'] at hA
    cases hfB : (List.range' 49152 (16384 + 1 - num)).find?
        (fun q => window_free excl q num) with
    | some p =>
      rw [hfB] at hB
      simp only [Option.map_some'] at hB
      rw [find_true_eq_of_tierB excl num _ (by omega) hA hB]
      rfl
    | none =>
      rw [hfB] at hB
      simp only [Option.map_none'] at hB
      rw [find_true_eq_of_none excl num (by omega) hA hB]
      rfl

theorem contiguous_equals_first_window_witness :
    (1 : ℕ) ≤ 3 ∧
    find_available_ports ({1024, 1027} : Finset ℕ) 3 true = [1028, 1029, 1030] :=
  ⟨by decide,
    (contiguous_equals_first_window ({1024, 1027} : Finset ℕ) 3 (by decide)).trans
      (by decide)⟩

/-- C3: non-contiguous mode returns the smallest non-excluded ports of
[1024, 65535] in ascending order, of length min(desired_count, number of
available ports); with all of tier A excluded and 49152 free, the first
returned port is 49152. -/
theorem noncontiguous_smallest_available (forbidden : Finset ℕ) (num : ℕ) :
    find_available_ports forbidden num false =
      (spec_available_ascending forbidden).take num ∧
    (find_available_ports forbidden num false).length =
      min num (spec_available_ascending forbidden).length ∧
    ((∀ p, 1024 ≤ p → p ≤ 49151 → p ∈ forbidden) → 49152 ∉ forbidden →
      1 ≤ num →
      (find_available_ports forbidden num false).head? = some 49152) := by
  refine ⟨find_noncontiguous_eq forbidden num, ?_, ?_⟩
  · rw [find_noncontiguous_eq]
    exact List.length_take _ _
  · intro hA hB hn
    rw [find_noncontiguous_eq]
    have hsplit : spec_available_ascending forbidden =
        (List.range' 1024 48128).filter (fun p => p ∉ forbidden) ++
          (List.range' 49152 16384).filter (fun p => p ∉ forbidden) := by
      rw [spec_available_ascending, ← List.filter_append]
      have h := List.range'_append_1 1024 48128 16384
      norm_num at h
      rw [h]
    have h1 : (List.range' 1024 48128).filter (fun p => p ∉ forbidden) = [] := by
      rw [List.filter_eq_nil_iff]
      intro a ha
      rw [List.mem_range'_1] at ha
      simp only [decide_eq_true_eq, Decidable.not_not]
      exact hA a (by omega) (by omega)
    have h2 : (List.range' 49152 16384).filter (fun p => p ∉ forbidden) =
        49152 :: (List.range' 49153 16383).filter (fun p => p ∉ forbidden) := by
      have hr : List.range' 49152 16384 = 49152 :: List.range' 49153 16383 := by
        have hx := List.range'_succ 49152 16383 1
        norm_num at hx
        exact hx
      rw [hr, List.filter_cons_of_pos (by simpa using hB)]
    rw [hsplit, h1, h2, List.nil_append]
    cases num with
    | zero => omega
    | succ n => rw [List.take_succ_cons]; rfl

theorem noncontiguous_smallest_available_witness :
    49152 ∉ Finset.Icc 1024 49151 ∧ (1 : ℕ) ≤ 1 ∧
    (find_available_ports (Finset.Icc 1024 49151) 1 false).head? = some 49152 :=
  ⟨by simp, by decide,
    (noncontiguous_smallest_available (Finset.Icc 1024 49151) 1).2.2
      (fun p h1 h2 => Finset.mem_Icc.mpr ⟨h1, h2⟩)
      (by simp) (by decide)⟩

/-- C4: a non-empty contiguous result has length exactly desired_count and
its consecutive entries differ by exactly one; contiguous mode never
returns a non-empty sequence shorter than desired_count. -/
theorem contiguous_result_unit_run (forbidden : Finset ℕ) (num : ℕ)
    (h : find_available_ports forbidden num true ≠ []) :
    (find_available_ports forbidden num true).length = num ∧
    ∀ i (hi : i + 1 < (find_available_ports forbidden num true).length),
      (find_available_ports forbidden num true).get ⟨i + 1, hi⟩ =
        (find_available_ports forbidden num true).get ⟨i, Nat.lt_of_succ_lt hi⟩ + 1 := by
  rcases find_contiguous_cases forbidden num with heq | ⟨q, hq, heq, hfree⟩
  · exact absurd heq h
  · rw [heq]
    refine ⟨List.length_range' _ _ _, ?_⟩
    intro i hi
    rw [List.length_range'] at hi
    simp only [List.get_eq_getElem, List.getElem_range']
    omega

theorem contiguous_result_unit_run_witness :
    find_available_ports ({1024, 1027} : Finset ℕ) 3 true ≠ [] ∧
    (find_available_ports ({1024, 1027} : Finset ℕ) 3 true).length = 3 :=
  ⟨by decide,
    (contiguous_result_unit_run ({1024, 1027} : Finset ℕ) 3 (by decide)).1⟩

/-- C5: find_available_ports is total; when desired_count exceeds a tier's
width the saturating subtraction leaves zero window positions for that tier
(no u16 underflow or wrap), and a contiguous request above 48128 ports
returns the empty sequence rather than failing. -/
theorem contiguous_block_too_large (forbidden : Finset ℕ) (num : ℕ) :
    (48128 < num → effective_end_search 49151 num + 1 - 1024 = 0) ∧
    (16384 < num → effective_end_search 65535 num + 1 - 49152 = 0) ∧
    (48128 < num → find_available_ports forbidden num true = []) := by
  have hA : 48128 < num → effective_end_search 49151 num + 1 - 1024 = 0 := by
    intro h
    rw [effective_end_search, if_pos (by omega : 0 < num)]
    omega
  have hB : 16384 < num → effective_end_search 65535 num + 1 - 49152 = 0 := by
    intro h
    rw [effective_end_search, if_pos (by omega : 0 < num)]
    omega
  refine ⟨hA, hB, fun h => ?_⟩
  apply find_true_eq_of_none forbidden num (by omega)
  · rw [search_tier, hA h]
    rfl
  · rw [search_tier, hB (by omega)]
    rfl

theorem contiguous_block_too_large_witness :
    48128 < 64612 ∧ find_available_ports (∅ : Finset ℕ) 64612 true = [] :=
  ⟨by decide, (contiguous_block_too_large ∅ 64612).2.2 (by decide)⟩

/-- C10: for desired_count ≥ 2, a non-empty contiguous result lies entirely
within a single tier; it never contains both 49151 and 49152, so a run
straddling the tier boundary is never returned. -/
theorem contiguous_result_single_tier (forbidden : Finset ℕ) (num : ℕ)
    (h : 2 ≤ num) :
    ((∀ p ∈ find_available_ports forbidden num true, 1024 ≤ p ∧ p ≤ 49151) ∨
     (∀ p ∈ find_available_ports forbidden num true, 49152 ≤ p ∧ p ≤ 65535)) ∧
    ¬ (49151 ∈ find_available_ports forbidden num true ∧
       49152 ∈ find_available_ports forbidden num true) := by
  rcases find_contiguous_cases forbidden num with heq | ⟨q, hq, heq, -⟩
  · rw [heq]
    exact ⟨Or.inl (by simp), by simp⟩
  · rw [heq]
    constructor
    · rcases hq with ⟨h1, h2⟩ | ⟨h1, h2⟩
      · left
        intro p hp
        rw [List.mem_range'_1] at hp
        omega
      · right
        intro p hp
        rw [List.mem_range'_1] at hp
        omega
    · rintro ⟨ha, hb⟩
      rw [List.mem_range'_1] at ha hb
      rcases hq with ⟨h1, h2⟩ | ⟨h1, h2⟩ <;> omega

theorem contiguous_result_single_tier_witness :
    (2 : ℕ) ≤ 2 ∧
    ¬ (49151 ∈ find_available_ports (∅ : Finset ℕ) 2 true ∧
       49152 ∈ find_available_ports (∅ : Finset ℕ) 2 true) :=
  ⟨by decide, (contiguous_result_single_tier ∅ 2 (by decide)).2⟩

/-! ## Lemmas: the registry parser -/

theorem mem_parse_fold (ls : List Str) (S : Finset ℕ) (p : ℕ) :
    p ∈ ls.foldl (fun ports line =>
        match parse_line line with
        | some q => insert q ports
        | none => ports) S ↔
      p ∈ S ∨ ∃ line ∈ ls, parse_line line = some p := by
  induction ls generalizing S with
  | nil => simp
  | cons l ls ih =>
    simp only [List.foldl_cons]
    cases h : parse_line l with
    | none =>
      simp only [h]
      rw [ih]
      constructor
      · rintro (hs | ⟨line, hl, hp⟩)
        · exact Or.inl hs
        · exact Or.inr ⟨line, List.mem_cons_of_mem _ hl, hp⟩
      · rintro (hs | ⟨line, hl, hp⟩)
        · exact Or.inl hs
        · rcases List.mem_cons.mp hl with rfl | hl'
          · rw [h] at hp
            cases hp
          · exact Or.inr ⟨line, hl', hp⟩
    | some q =>
      simp only [h]
      rw [ih, Finset.mem_insert]
      constructor
      · rintro ((rfl | hs) | ⟨line, hl, hp⟩)
        · exact Or.inr ⟨l, List.mem_cons_self _ _, h⟩
        · exact Or.inl hs
        · exact Or.inr ⟨line, List.mem_cons_of_mem _ hl, hp⟩
      · rintro (hs | ⟨line, hl, hp⟩)
        · exact Or.inl (Or.inr hs)
        · rcases List.mem_cons.mp hl with rfl | hl'
          · rw [h] at hp
            exact Or.inl (Or.inl (Option.some.inj hp).symm)
          · exact Or.inr ⟨line, hl', hp⟩

theorem mem_parse_services_lines (ls : List Str) (p : ℕ) :
    p ∈ parse_services_lines ls ↔ ∃ line ∈ ls, parse_line line = some p := by
  rw [parse_services_lines, mem_parse_fold]
  simp

theorem parse_line_eq_some_iff (line : Str) (p : ℕ) :
    parse_line line = some p ↔ keeps_line line p := by
  rw [keeps_line]
  simp only [parse_line]
  by_cases h1 : (trimStr line).head? = some '#' ∨ trimStr line = []
  · rw [if_pos h1]
    rcases h1 with h | h <;> simp [h]
  · rw [if_neg h1]
    push_neg at h1
    obtain ⟨h1a, h1b⟩ := h1
    by_cases h2 : (split_whitespace (trimStr line)).length < 2
    · rw [if_pos h2]
      constructor
      · intro hc
        cases hc
      · rintro ⟨-, -, hlen, -⟩
        omega
    · rw [if_neg h2]
      by_cases h3 : toLowerStr ((split_whitespace (trimStr line)).getD 0 [])
          = "unknown".toList
      · rw [if_pos h3]
        constructor
        · intro hc
          cases hc
        · rintro ⟨-, -, -, hneq, -⟩
          exact absurd h3 hneq
      · rw [if_neg h3]
        by_cases h4 : (splitWhen (fun c => c = '/')
            ((split_whitespace (trimStr line)).getD 1 [])).length = 2
        · obtain ⟨a, b, hab⟩ := List.length_eq_two.mp h4
          rw [if_pos h4, hab]
          simp only [List.getD_cons_zero, List.getD_cons_succ]
          by_cases h5 : toLowerStr b = "tcp".toList
          · rw [if_pos h5]
            constructor
            · intro hp
              exact ⟨h1b, h1a, by omega, h3, a, b, rfl, h5, hp⟩
            · rintro ⟨-, -, -, -, a', b', hab', h5', hp'⟩
              have hab2 : a = a' ∧ b = b' := by simpa using hab'
              obtain ⟨rfl, rfl⟩ := hab2
              exact hp'
          · rw [if_neg h5]
            constructor
            · intro hc
              cases hc
            · rintro ⟨-, -, -, -, a', b', hab', h5', hp'⟩
              have hab2 : a = a' ∧ b = b' := by simpa using hab'
              obtain ⟨rfl, rfl⟩ := hab2
              exact absurd h5' h5
        · rw [if_neg h4]
          constructor
          · intro hc
            cases hc
          · rintro ⟨-, -, -, -, a', b', hab', -, -⟩
            exact absurd (by rw [hab']; rfl) h4

/-! ## Claim theorems: parser, aggregator, range cells -/

/-- C6: parse_services_content keeps exactly the ports of lines that are
non-empty after trimming, do not start with the comment mark, have at least
two whitespace-separated fields, whose first field is not "unknown"
case-insensitively, whose second field splits on the slash into exactly a
port and a protocol equal to "tcp" case-insensitively, and whose port part
parses as a u16. -/
theorem parse_keeps_exactly (content : Str) (S : Finset ℕ)
    (hS : parse_services_content content = Except.ok S) (p : ℕ) :
    p ∈ S ↔ ∃ line ∈ linesStr content, keeps_line line p := by
  have hS' : S = parse_services_lines (linesStr content) := by
    rw [parse_services_content] at hS
    exact (Except.ok.inj hS).symm
  subst hS'
  rw [mem_parse_services_lines]
  exact exists_congr fun line =>
    and_congr_right fun _ => parse_line_eq_some_iff line p

theorem parse_keeps_exactly_witness :
    parse_services_content
        "service1\t80/tcp\nservice2   100/tcp\nunknown\t9/tcp".toList
      = Except.ok ({80, 100} : Finset ℕ) ∧
    (80 ∈ ({80, 100} : Finset ℕ) ↔
      ∃ line ∈ linesStr
          "service1\t80/tcp\nservice2   100/tcp\nunknown\t9/tcp".toList,
        keeps_line line 80) :=
  ⟨by decide,
    parse_keeps_exactly _ ({80, 100} : Finset ℕ) (by decide) 80⟩

/-- C7: parse_services_content returns Ok on every input string, and a line
that contributes no port (too few fields, bad port/protocol shape, or a
failing u16 parse) is silently skipped without affecting the rest of the
parse; the result is a set, hence deduplicated. -/
theorem parse_never_fails (content : Str) :
    (∃ S, parse_services_content content = Except.ok S) ∧
    ∀ ls₁ ls₂ line, parse_line line = none →
      parse_services_lines (ls₁ ++ line :: ls₂) =
        parse_services_lines (ls₁ ++ ls₂) := by
  refine ⟨⟨parse_services_lines (linesStr content), rfl⟩, ?_⟩
  intro ls₁ ls₂ line h
  simp only [parse_services_lines, List.foldl_append, List.foldl_cons, h]

theorem parse_never_fails_witness :
    parse_line "garbage".toList = none ∧
    parse_services_lines (["svc 1/tcp".toList] ++ "garbage".toList :: []) =
      parse_services_lines (["svc 1/tcp".toList] ++ []) :=
  ⟨by decide,
    (parse_never_fails "".toList).2 ["svc 1/tcp".toList] [] "garbage".toList
      (by decide)⟩

theorem mem_aggregate_fold (sets : List (Finset ℕ)) (acc : Finset ℕ) (p : ℕ) :
    p ∈ sets.foldl (fun acc s => acc ∪ s) acc ↔
      p ∈ acc ∨ ∃ s ∈ sets, p ∈ s := by
  induction sets generalizing acc with
  | nil => simp
  | cons t ts ih =>
    rw [List.foldl_cons, ih]
    simp only [Finset.mem_union, List.mem_cons]
    constructor
    · rintro ((ha | ht) | ⟨s, hs, hp⟩)
      · exact Or.inl ha
      · exact Or.inr ⟨t, Or.inl rfl, ht⟩
      · exact Or.inr ⟨s, Or.inr hs, hp⟩
    · rintro (ha | ⟨s, rfl | hs, hp⟩)
      · exact Or.inl (Or.inl ha)
      · exact Or.inl (Or.inr hp)
      · exact Or.inr ⟨s, hs, hp⟩

/-- C8: aggregating forbidden-port sets into the exclusion set is pure set
union and order-independent: aggregate yields exactly the union of its
inputs, aggregate [A, B] = aggregate [B, A], and any permutation of the
input sequence yields the same exclusion set. -/
theorem aggregate_is_order_independent_union :
    (∀ sets p, p ∈ aggregate sets ↔ ∃ s ∈ sets, p ∈ s) ∧
    (∀ A B : Finset ℕ, aggregate [A, B] = aggregate [B, A]) ∧
    (∀ sets₁ sets₂ : List (Finset ℕ), sets₁.Perm sets₂ →
      aggregate sets₁ = aggregate sets₂) := by
  have hmem : ∀ sets p, p ∈ aggregate sets ↔ ∃ s ∈ sets, p ∈ s := by
    intro sets p
    rw [aggregate, mem_aggregate_fold]
    simp
  refine ⟨hmem, ?_, ?_⟩
  · intro A B
    ext p
    rw [hmem, hmem]
    constructor
    · rintro ⟨s, hs, hp⟩
      exact ⟨s, by simpa [or_comm] using hs, hp⟩
    · rintro ⟨s, hs, hp⟩
      exact ⟨s, by simpa [or_comm] using hs, hp⟩
  · intro l₁ l₂ hperm
    ext p
    rw [hmem, hmem]
    exact ⟨fun ⟨s, hs, hp⟩ => ⟨s, hperm.mem_iff.mp hs, hp⟩,
      fun ⟨s, hs, hp⟩ => ⟨s, hperm.mem_iff.mpr hs, hp⟩⟩

theorem aggregate_is_order_independent_union_witness :
    ([({1, 5} : Finset ℕ), {2}]).Perm [({2} : Finset ℕ), {1, 5}] ∧
    aggregate [({1, 5} : Finset ℕ), {2}] =
      aggregate [({2} : Finset ℕ), {1, 5}] :=
  ⟨List.Perm.swap _ _ _,
    aggregate_is_order_independent_union.2.2 _ _ (List.Perm.swap _ _ _)⟩

/-- C9: the tabular/range registry parser's cell expansion (modelled from
spec §4.2): "1024-1028" expands to every port in [1024, 1028] inclusive, a
reversed cell "1028-1024" contributes no ports, and an equal range with
end = start produces exactly the one port. -/
theorem range_cell_expansion :
    expand_range_cell "1024-1028".toList =
      ({1024, 1025, 1026, 1027, 1028} : Finset ℕ) ∧
    expand_range_cell "1028-1024".toList = ∅ ∧
    (∀ cell a b s, splitWhen (fun c => c = '-') (trimStr cell) = [a, b] →
      parseU16 (trimStr a) = some s → parseU16 (trimStr b) = some s →
      expand_range_cell cell = {s}) := by
  refine ⟨by decide, by decide, ?_⟩
  intro cell a b s hsplit ha hb
  simp only [expand_range_cell, hsplit, List.length_cons, List.length_nil]
  norm_num
  rw [ha, hb]
  simp [Finset.Icc_self]

theorem range_cell_expansion_witness :
    splitWhen (fun c => c = '-') (trimStr "500-500".toList) =
      ["500".toList, "500".toList] ∧
    parseU16 (trimStr "500".toList) = some 500 ∧
    expand_range_cell "500-500".toList = {500} :=
  ⟨by decide, by decide,
    range_cell_expansion.2.2 "500-500".toList "500".toList "500".toList 500
      (by decide) (by decide) (by decide)⟩

end Portpick
